import Mathlib

/-!
Morse codec over an implicit binary tree (`morse_code.cc`)

Shallow embedding of `morse::decode_map`, `morse::encode` and `morse::decode`.

* A `FixedString<N>` is modelled by the list of its first `N` elements
  (`wchar_t` values as natural-number code points); `buf[N]` is the
  terminating zero, which is what `List.getD _ _ 0` returns at index `N`.
* `std::size_t` is 64 bits wide.  The node counter of `decode` doubles once per
  token, so it is reduced modulo `2 ^ 64`; every other counter is bounded by
  the length of a string held in memory and cannot wrap.
* An access `s[i]` outside the buffer has no defined value: a store into
  `result` and the read of `decode_map` return `Option`, and `none` stands for
  an access outside the `N` characters of the string.
* Loops run on an explicit fuel argument that is large enough for every state
  the loop can be entered with (proved below).
-/

namespace morse

set_option maxRecDepth 100000

/-! ## Strings and the table -/

/-- Code points of the characters of a string literal (`L"..."`). -/
def wstr (s : String) : List Nat := s.toList.map Char.toNat

/-- Modulus of `std::size_t` arithmetic. -/
def SIZE_MOD : Nat := 2 ^ 64

/-- The space character `L' '`. -/
def SPACE : Nat := 32

/-- The dash character `L'-'`. -/
def DASH : Nat := 45

/-- The dot character `L'.'`. -/
def DOT : Nat := 46

/-- The filler `L'<'` that `decode_map` holds at the root and at unused nodes. -/
def SENTINEL : Nat := 60

/-- The table `morse::decode_map`: "a linear binary tree of morse code". -/
def decode_map : List Nat :=
  wstr "<ETIANMSURWDKGOHVFÜL<PJBXCYZQÖ<54Ŝ3É<<2<È+<<<<16=/<<<<<7<<<8<90<<<<<<<<<<<<?_<<<<\"<<.<<<<@<<<'<<-<<<<<<<<;!<()<<<<<,<<<<:<<<<<<<"

/-! ## `morse::encode` -/

/-- The lambda `to_upper` of `encode`:
`(L'a' < ch && ch < L'z') ? ch - (L'a' - L'A') : ch`. -/
def to_upper (ch : Nat) : Nat :=
  if 97 < ch ∧ ch < 122 then ch - (97 - 65) else ch

/-- The lambda `find_letter_index` of `encode`:
`std::distance(decode_map.buf, std::find(decode_map.buf, decode_map.buf + decode_map.size(), ch))`,
the first position holding `ch`, or `decode_map.size()` when there is none. -/
def find_letter_index (ch : Nat) : Nat := decode_map.indexOf ch

/-- The loop `for(;letter_index; --letter_index /= 2) result++;` of `letter_length`. -/
def letter_length_loop : Nat → Nat → Nat → Nat
  | 0, _, result => result
  | fuel + 1, letter_index, result =>
    if letter_index = 0 then result
    else letter_length_loop fuel ((letter_index - 1) / 2) (result + 1)

/-- The lambda `letter_length` of `encode`. -/
def letter_length (ch : Nat) : Nat :=
  letter_length_loop (find_letter_index ch) (find_letter_index ch) 0

/-- The constant `result_size` of `encode`:
`std::accumulate(.., 0, total_size + letter_length(to_upper(ch)) + 1) - !!string.size()`. -/
def result_size (string : List Nat) : Nat :=
  string.foldl (fun total_size ch => total_size + letter_length (to_upper ch) + 1) 0
    - (if string.length = 0 then 0 else 1)

/-- The literal `L"-."` indexed by `current_index % 2`. -/
def marker (bit : Nat) : Nat := (wstr "-.").getD bit 0

/-- A store `buf[index] = ch` into a buffer of `buf.length` characters. -/
def store (buf : List Nat) (index ch : Nat) : Option (List Nat) :=
  if index < buf.length then some (buf.set index ch) else none

/-- The loop
`for(;current_index; current_index /= 2) result[write_index++] = L"-."[current_index--%2];`
on the state `(result, write_index)`. -/
def write_loop : Nat → Nat → List Nat → Nat → Option (List Nat × Nat)
  | 0, _, result, write_index => some (result, write_index)
  | fuel + 1, current_index, result, write_index =>
    if current_index = 0 then some (result, write_index)
    else
      match store result write_index (marker (current_index % 2)) with
      | none => none
      | some result1 => write_loop fuel ((current_index - 1) / 2) result1 (write_index + 1)

/-- The call `std::reverse(buf + first, buf + last)`. -/
def reverse_range (buf : List Nat) (first last : Nat) : List Nat :=
  buf.take first ++ ((buf.drop first).take (last - first)).reverse ++ buf.drop last

/-- The loop `for(const auto& ch : string)` of `encode` on the state
`(result, write_index)`; the value is the final state. -/
def encode_loop : List Nat → List Nat → Nat → Option (List Nat × Nat)
  | [], result, write_index => some (result, write_index)
  | ch :: rest, result, write_index =>
    let current_index := find_letter_index (to_upper ch)
    let old_write_index := write_index
    match write_loop current_index current_index result write_index with
    | none => none
    | some (result1, write_index1) =>
      let result2 := reverse_range result1 old_write_index write_index1
      if write_index1 < result2.length then
        match store result2 write_index1 SPACE with
        | none => none
        | some result3 => encode_loop rest result3 (write_index1 + 1)
      else encode_loop rest result2 write_index1

/-- The function `encode` with its final `write_index`: the buffer `result` starts as
`result_size` zero characters. -/
def encode_run (string : List Nat) : Option (List Nat × Nat) :=
  encode_loop string (List.replicate (result_size string) 0) 0

/-- The function `morse::encode<string>()`. -/
def encode (string : List Nat) : Option (List Nat) :=
  (encode_run string).map Prod.fst

/-! ## `morse::decode` -/

/-- The summand of `find_token_count`:
`i + 1 >= string.size() || (string[i] + 1 >> 1 == 23 && string[i + 1] == L' ')`. -/
def token_end (string : List Nat) (i : Nat) : Bool :=
  decide (i + 1 ≥ string.length) ||
    (decide ((string.getD i 0 + 1) >>> 1 = 23) && decide (string.getD (i + 1) 0 = SPACE))

/-- The loop `for(std::size_t i = 0; i < string.size(); ++i) result += ...` of
`find_token_count`. -/
def find_token_count_loop (string : List Nat) : Nat → Nat → Nat → Nat
  | 0, _, result => result
  | fuel + 1, i, result =>
    if i < string.length then
      find_token_count_loop string fuel (i + 1) (result + (if token_end string i then 1 else 0))
    else result

/-- The lambda `find_token_count` of `decode`, which gives `result_size`. -/
def find_token_count (string : List Nat) : Nat :=
  find_token_count_loop string string.length 0 0

/-- The start value of `read_index`: "find first char that is not a space". -/
def first_non_space (string : List Nat) : Nat :=
  string.findIdx (fun ch => decide (ch ≠ SPACE))

/-- The loop
`for (;read_index < string.size() && string[read_index] != L' '; ++read_index)
   current_index = current_index * 2 + (string[read_index] == L'-');`
on the state `(read_index, current_index)`. -/
def read_group (string : List Nat) : Nat → Nat → Nat → Nat × Nat
  | 0, read_index, current_index => (read_index, current_index)
  | fuel + 1, read_index, current_index =>
    if read_index < string.length ∧ string.getD read_index 0 ≠ SPACE then
      read_group string fuel (read_index + 1)
        ((current_index * 2 + (if string.getD read_index 0 = DASH then 1 else 0)) % SIZE_MOD)
    else (read_index, current_index)

/-- The expression
`current_index > decode_map.size() ? L' ' : decode_map[current_index - 1]`;
the subtraction is that of `std::size_t`. -/
def lookup_char (current_index : Nat) : Option Nat :=
  if current_index > decode_map.length then some SPACE
  else decode_map.get? ((current_index + SIZE_MOD - 1) % SIZE_MOD)

/-- The loop `for(auto& ch : result)` of `decode`: `count` characters are still to be
written and the value is the list of characters written. -/
def decode_loop (string : List Nat) : Nat → Nat → Option (List Nat)
  | 0, _ => some []
  | count + 1, read_index =>
    match read_group string string.length read_index 1 with
    | (read_index1, current_index) =>
      match lookup_char current_index with
      | none => none
      | some ch =>
        match decode_loop string count (read_index1 + 1) with
        | none => none
        | some rest => some (ch :: rest)

/-- The function `morse::decode<string>()`. -/
def decode (string : List Nat) : Option (List Nat) :=
  decode_loop string (find_token_count string) (first_non_space string)

/-! ## Functional description of the two walks -/

/-- The markers that `write_loop` stores from start index `node`, in the order in which it
stores them (leaf to root). -/
def up_walk : Nat → Nat → List Nat
  | 0, _ => []
  | fuel + 1, node =>
    if node = 0 then [] else marker (node % 2) :: up_walk fuel ((node - 1) / 2)

/-- The token group of a table index: the markers of the upward walk after `std::reverse`. -/
def token_group (index : Nat) : List Nat := (up_walk index index).reverse

/-- The token group that `encode` emits for the character `ch`. -/
def char_group (ch : Nat) : List Nat := token_group (find_letter_index (to_upper ch))

/-- Groups joined by one space between consecutive groups. -/
def join_groups : List (List Nat) → List Nat
  | [] => []
  | [g] => g
  | g :: g1 :: rest => g ++ SPACE :: join_groups (g1 :: rest)

/-- The value of `current_index` after the loop of `read_group` has consumed the tokens
`g`, started from `node`. -/
def down_walk (node : Nat) : List Nat → Nat
  | [] => node
  | t :: g => down_walk ((node * 2 + (if t = DASH then 1 else 0)) % SIZE_MOD) g

/-- The character `decode` writes for one group: the walk from `1`, then the table read. -/
def decode_group (g : List Nat) : Option Nat := lookup_char (down_walk 1 g)

/-! ## Groups and their decoding -/

/-- A group: a non-empty run of dot and dash tokens. -/
def is_group (g : List Nat) : Prop := g ≠ [] ∧ ∀ t ∈ g, t = DOT ∨ t = DASH

instance (g : List Nat) : Decidable (is_group g) := by
  unfold is_group; infer_instance

/-- The number of positions that `find_token_count` counts, on the rest of the string. -/
def count_ends : List Nat → Nat
  | [] => 0
  | [_] => 1
  | c :: d :: rest =>
    (if (c + 1) >>> 1 = 23 ∧ d = SPACE then 1 else 0) + count_ends (d :: rest)

/-- The characters written by `decode_loop` for a list of groups. -/
def decode_groups : List (List Nat) → Option (List Nat)
  | [] => some []
  | g :: gs =>
    match decode_group g with
    | none => none
    | some ch =>
      match decode_groups gs with
      | none => none
      | some rest => some (ch :: rest)

/-! ## Definitions that follow the specification -/

/-- International Morse code of the 26 letters and the 10 digits
(Recommendation ITU-R M.1677-1, part I, sections 1.1.1 and 1.1.2). -/
def itu_table : List (String × String) :=
  [("A", ".-"), ("B", "-..."), ("C", "-.-."), ("D", "-.."), ("E", "."), ("F", "..-."),
   ("G", "--."), ("H", "...."), ("I", ".."), ("J", ".---"), ("K", "-.-"), ("L", ".-.."),
   ("M", "--"), ("N", "-."), ("O", "---"), ("P", ".--."), ("Q", "--.-"), ("R", ".-."),
   ("S", "..."), ("T", "-"), ("U", "..-"), ("V", "...-"), ("W", ".--"), ("X", "-..-"),
   ("Y", "-.--"), ("Z", "--.."),
   ("1", ".----"), ("2", "..---"), ("3", "...--"), ("4", "....-"), ("5", "....."),
   ("6", "-...."), ("7", "--..."), ("8", "---.."), ("9", "----."), ("0", "-----")]

/-- The International Morse code of a character, when `itu_table` lists it. -/
def itu_code (ch : Nat) : Option (List Nat) :=
  (itu_table.find? (fun p => wstr p.1 == [ch])).map (fun p => wstr p.2)

/-- An upper-case letter `A`..`Z` or a digit `0`..`9`. -/
def is_letter_or_digit (ch : Nat) : Prop := (65 ≤ ch ∧ ch ≤ 90) ∨ (48 ≤ ch ∧ ch ≤ 57)

instance (ch : Nat) : Decidable (is_letter_or_digit ch) := by
  unfold is_letter_or_digit; infer_instance

/-- The node of a group as the specification computes it, without a word size:
from `node`, each token gives `node = 2 * node + (token is '-' ? 1 : 0)`. -/
def node_walk (node : Nat) : List Nat → Nat
  | [] => node
  | t :: g => node_walk (2 * node + (if t = DASH then 1 else 0)) g

/-- The characters of claim C1: the space, and the table entries other than the filler. -/
def is_recognized (ch : Nat) : Prop := ch = SPACE ∨ (ch ∈ decode_map ∧ ch ≠ SENTINEL)

instance (ch : Nat) : Decidable (is_recognized ch) := by
  unfold is_recognized; infer_instance

/-- International Morse code of the thirteen punctuation marks of claim C11
(Recommendation ITU-R M.1677-1, part I, section 1.1.3). -/
def itu_punctuation : List (String × String) :=
  [(".", ".-.-.-"), (",", "--..--"), (":", "---..."), ("?", "..--.."), ("'", ".----."),
   ("-", "-....-"), ("/", "-..-."), ("(", "-.--."), (")", "-.--.-"), ("\"", ".-..-."),
   ("=", "-...-"), ("+", ".-.-."), ("@", ".--.-.")]

/-- The path of a node of the implicit tree, on fuel: the path of the parent
`(n - 1) / 2` followed by a dot for an odd node (a child `2 * i + 1`) and by a dash for an
even node (a child `2 * i + 2`). -/
def tree_path_fuel : Nat → Nat → List Nat
  | 0, _ => []
  | fuel + 1, n =>
    if n = 0 then [] else tree_path_fuel fuel ((n - 1) / 2) ++ [if n % 2 = 1 then DOT else DASH]

/-- The path of the specification: `path(0)` is empty, `path(2 * i + 1)` is `path(i)`
followed by a dot and `path(2 * i + 2)` is `path(i)` followed by a dash. -/
def tree_path (n : Nat) : List Nat := tree_path_fuel n n

/-- The depth of a node of the implicit tree, on fuel: one more than the depth of the
parent `(n - 1) / 2`. -/
def tree_depth_fuel : Nat → Nat → Nat
  | 0, _ => 0
  | fuel + 1, n => if n = 0 then 0 else tree_depth_fuel fuel ((n - 1) / 2) + 1

/-- The tree depth of a node: the number of edges from the root, node `0`. -/
def tree_depth (n : Nat) : Nat := tree_depth_fuel n n

theorem join_groups_eq_intercalate (gs : List (List Nat)) :
    join_groups gs = [SPACE].intercalate gs := by
  induction gs with
  | nil => rfl
  | cons g rest ih =>
    cases rest with
    | nil => simp [join_groups, List.intercalate, List.intersperse]
    | cons g1 rest1 =>
      simp only [join_groups, ih]
      simp [List.intercalate, List.intersperse]

theorem up_walk_fuel (fuel : Nat) : ∀ node, node ≤ fuel → up_walk fuel node = up_walk node node := by
  induction fuel using Nat.strong_induction_on with
  | _ fuel ih =>
    intro node h
    cases fuel with
    | zero =>
      have : node = 0 := by omega
      subst this; rfl
    | succ f =>
      cases node with
      | zero => rfl
      | succ m =>
        simp only [up_walk, Nat.succ_ne_zero, if_false, Nat.add_sub_cancel]
        have h1 : (m / 2) ≤ f := by omega
        have h2 : (m / 2) ≤ m := Nat.div_le_self m 2
        rw [ih f (Nat.lt_succ_self f) (m / 2) h1]
        rw [ih m (by omega) (m / 2) h2]

/-- The upward walk visits `node`, `(node - 1) / 2`, ... until it reaches `0`. -/
theorem up_walk_eq (node : Nat) :
    up_walk node node
      = if node = 0 then [] else marker (node % 2) :: up_walk ((node - 1) / 2) ((node - 1) / 2) := by
  cases node with
  | zero => rfl
  | succ m =>
    simp only [up_walk, Nat.succ_ne_zero, if_false, Nat.add_sub_cancel]
    rw [up_walk_fuel m (m / 2) (Nat.div_le_self m 2)]

theorem letter_length_loop_eq (fuel : Nat) : ∀ node result,
    letter_length_loop fuel node result = result + (up_walk fuel node).length := by
  induction fuel with
  | zero => intro node result; simp [letter_length_loop, up_walk]
  | succ f ih =>
    intro node result
    by_cases h : node = 0
    · simp [letter_length_loop, up_walk, h]
    · simp [letter_length_loop, up_walk, h, ih]; omega

theorem letter_length_eq (ch : Nat) :
    letter_length (to_upper ch) = (char_group ch).length := by
  simp [letter_length, char_group, token_group, letter_length_loop_eq]

theorem store_append (pre post : List Nat) (x ch : Nat) :
    store (pre ++ x :: post) pre.length ch = some (pre ++ ch :: post) := by
  simp [store]

theorem write_loop_spec (fuel : Nat) : ∀ (node : Nat) (pre mid post : List Nat),
    mid.length = (up_walk fuel node).length →
    write_loop fuel node (pre ++ mid ++ post) pre.length
      = some (pre ++ up_walk fuel node ++ post, pre.length + (up_walk fuel node).length) := by
  induction fuel with
  | zero =>
    intro node pre mid post h
    simp [up_walk] at h
    simp [write_loop, up_walk, h]
  | succ f ih =>
    intro node pre mid post h
    by_cases hn : node = 0
    · simp [up_walk, hn] at h
      simp [write_loop, up_walk, hn, h]
    · simp only [up_walk, hn, if_false, List.length_cons] at h
      cases mid with
      | nil => simp at h
      | cons x mid1 =>
        simp only [List.length_cons, Nat.add_right_cancel_iff] at h
        simp only [write_loop, up_walk, hn, if_false]
        have e1 : pre ++ x :: mid1 ++ post = pre ++ x :: (mid1 ++ post) := by simp
        rw [e1, store_append]
        have e2 : pre ++ marker (node % 2) :: (mid1 ++ post)
            = (pre ++ [marker (node % 2)]) ++ mid1 ++ post := by simp
        have e3 : pre.length + 1 = (pre ++ [marker (node % 2)]).length := by simp
        simp only []
        rw [e2, e3, ih _ _ _ _ h]
        simp [Nat.add_assoc, Nat.add_comm]

theorem reverse_range_spec (pre mid post : List Nat) :
    reverse_range (pre ++ mid ++ post) pre.length (pre.length + mid.length)
      = pre ++ mid.reverse ++ post := by
  simp [reverse_range, List.take_append_eq_append_take, List.drop_append_eq_append_drop]

/-- Length of the joined groups plus one separator: the sum accumulated by `result_size`. -/
theorem join_groups_length_cons (g : List Nat) (gs : List (List Nat)) :
    (join_groups (g :: gs)).length + (if gs = [] then 1 else 0)
      = g.length + 1 + (join_groups gs).length := by
  cases gs with
  | nil => simp [join_groups]
  | cons g1 rest => simp [join_groups]; omega

theorem accumulate_eq (string : List Nat) : ∀ total : Nat,
    string.foldl (fun total_size ch => total_size + letter_length (to_upper ch) + 1) total
      = total + (join_groups (string.map char_group)).length
          + (if string = [] then 0 else 1) := by
  induction string with
  | nil => intro total; simp [join_groups]
  | cons ch rest ih =>
    intro total
    rw [List.foldl_cons, ih, letter_length_eq, List.map_cons]
    have h := join_groups_length_cons (char_group ch) (rest.map char_group)
    by_cases hr : rest = []
    · subst hr; simp [join_groups]
    · simp [hr] at h ⊢; omega

theorem result_size_eq (string : List Nat) :
    result_size string = (join_groups (string.map char_group)).length := by
  unfold result_size
  rw [accumulate_eq]
  cases string with
  | nil => simp [join_groups]
  | cons ch rest => simp

theorem encode_loop_spec (string : List Nat) : ∀ (pre post : List Nat),
    post.length = (join_groups (string.map char_group)).length →
    encode_loop string (pre ++ post) pre.length
      = some (pre ++ join_groups (string.map char_group), pre.length + post.length) := by
  induction string with
  | nil =>
    intro pre post h
    simp [join_groups] at h
    simp [encode_loop, join_groups, h]
  | cons ch rest ih =>
    intro pre post h
    have hlen : (up_walk (find_letter_index (to_upper ch)) (find_letter_index (to_upper ch))).length
        = (char_group ch).length := by simp [char_group, token_group]
    cases rest with
    | nil =>
      simp only [List.map_cons, List.map_nil, join_groups] at h ⊢
      have hw := write_loop_spec (find_letter_index (to_upper ch))
        (find_letter_index (to_upper ch)) pre post [] (by rw [hlen]; exact h)
      simp only [List.append_nil] at hw
      rw [encode_loop]
      simp only [hw]
      have hr := reverse_range_spec pre
        (up_walk (find_letter_index (to_upper ch)) (find_letter_index (to_upper ch))) []
      simp only [List.append_nil] at hr
      rw [hr]
      have hg : (up_walk (find_letter_index (to_upper ch))
          (find_letter_index (to_upper ch))).reverse = char_group ch := rfl
      rw [hg, hlen, ← h]
      simp only [encode_loop, List.length_append]
      rw [if_neg (by omega)]
    | cons ch1 rest1 =>
      simp only [List.map_cons, join_groups, List.length_append, List.length_cons] at h
      obtain ⟨mid, tail, hpost, hmid⟩ : ∃ mid tail, post = mid ++ tail
          ∧ mid.length = (char_group ch).length :=
        ⟨post.take (char_group ch).length, post.drop (char_group ch).length,
          (List.take_append_drop _ _).symm, by simp; omega⟩
      subst hpost
      cases tail with
      | nil => simp at h; omega
      | cons x tail1 =>
        have hw := write_loop_spec (find_letter_index (to_upper ch))
          (find_letter_index (to_upper ch)) pre mid (x :: tail1) (by rw [hlen]; exact hmid)
        rw [← List.append_assoc, encode_loop]
        simp only [hw]
        rw [reverse_range_spec]
        have e1 : pre ++ (up_walk (find_letter_index (to_upper ch))
              (find_letter_index (to_upper ch))).reverse ++ x :: tail1
            = (pre ++ char_group ch) ++ x :: tail1 := by simp [char_group, token_group]
        have e2 : pre.length + (up_walk (find_letter_index (to_upper ch))
              (find_letter_index (to_upper ch))).length = (pre ++ char_group ch).length := by
          simp [hlen]
        rw [e1, e2, store_append]
        have hlt : (pre ++ char_group ch).length
            < (pre ++ char_group ch ++ x :: tail1).length := by simp
        simp only [hlt, if_true]
        have e3 : pre ++ char_group ch ++ SPACE :: tail1
            = (pre ++ char_group ch ++ [SPACE]) ++ tail1 := by simp
        have e4 : (pre ++ char_group ch).length + 1
            = (pre ++ char_group ch ++ [SPACE]).length := by simp [Nat.add_assoc]
        have htail : tail1.length
            = (join_groups ((ch1 :: rest1).map char_group)).length := by
          simp only [List.length_append, List.length_cons, List.map_cons] at h ⊢
          omega
        rw [e3, e4, ih _ _ htail]
        simp only [List.map_cons, join_groups, List.length_append, List.length_cons,
          List.append_assoc, List.singleton_append, List.length_nil]
        congr 2
        omega

/-- The value of `encode`: the token groups of the characters joined by single spaces, and
the final `write_index` is `result_size`. -/
theorem encode_run_eq (string : List Nat) :
    encode_run string
      = some (join_groups (string.map char_group), result_size string) := by
  have h := encode_loop_spec string [] (List.replicate (result_size string) 0)
    (by simp [result_size_eq])
  simpa [encode_run] using h

theorem encode_eq (string : List Nat) :
    encode string = some (join_groups (string.map char_group)) := by
  simp [encode, encode_run_eq]

/-! ## Lemmas on the downward walk and on `decode` -/

/-- The condition `string[i] + 1 >> 1 == 23` singles out the two tokens. -/
theorem token_test (ch : Nat) : (ch + 1) >>> 1 = 23 ↔ ch = DOT ∨ ch = DASH := by
  simp only [Nat.shiftRight_eq_div_pow, DOT, DASH]
  omega

theorem getD_append_length (pre suf : List Nat) :
    (pre ++ suf).getD pre.length 0 = suf.getD 0 0 := by
  rw [List.getD_append_right _ _ _ _ (Nat.le_refl _)]
  simp

theorem find_token_count_loop_spec (suf : List Nat) : ∀ (pre : List Nat) (fuel result : Nat),
    suf.length ≤ fuel →
    find_token_count_loop (pre ++ suf) fuel pre.length result = result + count_ends suf := by
  induction suf with
  | nil =>
    intro pre fuel result _
    cases fuel <;> simp [find_token_count_loop, count_ends]
  | cons c rest ih =>
    intro pre fuel result hf
    cases fuel with
    | zero => simp at hf
    | succ f =>
      have hlt : pre.length < (pre ++ c :: rest).length := by simp
      rw [find_token_count_loop, if_pos hlt]
      have e1 : pre ++ c :: rest = (pre ++ [c]) ++ rest := by simp
      have e2 : pre.length + 1 = (pre ++ [c]).length := by simp
      have hte : (if token_end (pre ++ c :: rest) pre.length then 1 else 0) + count_ends rest
          = count_ends (c :: rest) := by
        cases rest with
        | nil => simp [token_end, count_ends]
        | cons d rest1 =>
          have h0 : (pre ++ c :: d :: rest1).getD pre.length 0 = c := by
            rw [getD_append_length]; rfl
          have h1 : (pre ++ c :: d :: rest1).getD (pre.length + 1) 0 = d := by
            rw [List.getD_append_right _ _ _ _ (Nat.le_add_right _ _)]
            simp
          simp only [token_end, h0, h1, count_ends]
          simp
      conv_lhs => rw [e1, e2]
      rw [ih _ _ _ (by simpa using hf), ← e1, ← hte]
      omega

theorem find_token_count_eq (string : List Nat) :
    find_token_count string = count_ends string := by
  have h := find_token_count_loop_spec string [] string.length 0 (Nat.le_refl _)
  simpa [find_token_count] using h

theorem read_group_spec (g : List Nat) : ∀ (pre tail : List Nat) (fuel node : Nat),
    (∀ t ∈ g, t ≠ SPACE) → tail.getD 0 SPACE = SPACE → g.length ≤ fuel →
    read_group (pre ++ g ++ tail) fuel pre.length node
      = (pre.length + g.length, down_walk node g) := by
  induction g with
  | nil =>
    intro pre tail fuel node _ ht _
    cases fuel with
    | zero => simp [read_group, down_walk]
    | succ f =>
      have hc : ¬ (pre.length < (pre ++ [] ++ tail).length
          ∧ (pre ++ [] ++ tail).getD pre.length 0 ≠ SPACE) := by
        cases tail with
        | nil => simp
        | cons x tail1 =>
          simp only [List.getD_cons_zero] at ht
          simp only [List.append_nil, getD_append_length, List.getD_cons_zero, ht]
          simp
      rw [read_group, if_neg hc]
      simp [down_walk]
  | cons t g1 ih =>
    intro pre tail fuel node hg ht hf
    cases fuel with
    | zero => simp at hf
    | succ f =>
      have h0 : (pre ++ t :: g1 ++ tail).getD pre.length 0 = t := by
        rw [List.append_assoc, getD_append_length]; rfl
      have hc : pre.length < (pre ++ t :: g1 ++ tail).length
          ∧ (pre ++ t :: g1 ++ tail).getD pre.length 0 ≠ SPACE := by
        refine ⟨by simp, ?_⟩
        rw [h0]; exact hg t (List.mem_cons_self _ _)
      rw [read_group, if_pos hc, h0]
      have e1 : pre ++ t :: g1 ++ tail = (pre ++ [t]) ++ g1 ++ tail := by simp
      have e2 : pre.length + 1 = (pre ++ [t]).length := by simp
      rw [e1, e2, ih _ _ _ _ (fun x hx => hg x (List.mem_cons_of_mem _ hx)) ht
        (by simpa using hf)]
      simp only [down_walk, List.length_append, List.length_cons, List.length_nil, Prod.mk.injEq,
        and_true]
      omega

theorem token_ne_space {t : Nat} (h : t = DOT ∨ t = DASH) : t ≠ SPACE := by
  rcases h with h | h <;> subst h <;> decide

theorem count_ends_space (rest : List Nat) (h : rest ≠ []) :
    count_ends (SPACE :: rest) = count_ends rest := by
  cases rest with
  | nil => exact absurd rfl h
  | cons d rest1 => simp [count_ends, SPACE]

theorem count_ends_group (g : List Nat) (hg : is_group g) : count_ends g = 1 := by
  obtain ⟨hne, htok⟩ := hg
  induction g with
  | nil => exact absurd rfl hne
  | cons t g1 ih =>
    cases g1 with
    | nil => rfl
    | cons t1 g2 =>
      have h1 : t1 ≠ SPACE := token_ne_space (htok t1 (by simp))
      simp only [count_ends, h1, and_false, if_false, Nat.zero_add]
      exact ih (by simp) (fun x hx => htok x (List.mem_cons_of_mem _ hx))

theorem count_ends_group_space (g rest : List Nat) (hg : is_group g) (hr : rest ≠ []) :
    count_ends (g ++ SPACE :: rest) = 1 + count_ends rest := by
  obtain ⟨hne, htok⟩ := hg
  induction g with
  | nil => exact absurd rfl hne
  | cons t g1 ih =>
    cases g1 with
    | nil =>
      have ht : (t + 1) >>> 1 = 23 := (token_test t).2 (htok t (by simp))
      simp only [List.singleton_append, count_ends, ht, and_self, if_true]
      rw [count_ends_space rest hr]
    | cons t1 g2 =>
      have h1 : t1 ≠ SPACE := token_ne_space (htok t1 (by simp))
      simp only [List.cons_append, count_ends, h1, and_false, if_false, Nat.zero_add]
      exact ih (by simp) (fun x hx => htok x (List.mem_cons_of_mem _ hx))

theorem join_groups_ne_nil (g : List Nat) (gs : List (List Nat)) (hg : g ≠ []) :
    join_groups (g :: gs) ≠ [] := by
  cases gs with
  | nil => simpa [join_groups] using hg
  | cons g1 rest => simp [join_groups]

theorem count_ends_join (gs : List (List Nat)) (hne : gs ≠ []) (hgs : ∀ g ∈ gs, is_group g) :
    count_ends (join_groups gs) = gs.length := by
  induction gs with
  | nil => exact absurd rfl hne
  | cons g rest ih =>
    cases rest with
    | nil => simpa [join_groups] using count_ends_group g (hgs g (by simp))
    | cons g1 rest1 =>
      have hg1 : is_group g1 := hgs g1 (by simp)
      rw [join_groups, count_ends_group_space g _ (hgs g (by simp))
        (join_groups_ne_nil g1 rest1 hg1.1),
        ih (by simp) (fun x hx => hgs x (List.mem_cons_of_mem _ hx))]
      simp [Nat.add_comm]

theorem count_ends_leading (k : Nat) (w : List Nat) (hw : w ≠ []) :
    count_ends (List.replicate k SPACE ++ w) = count_ends w := by
  induction k with
  | zero => simp
  | succ n ih =>
    rw [List.replicate_succ, List.cons_append, count_ends_space _ (by simp [hw]), ih]

theorem first_non_space_leading (k : Nat) (t : Nat) (w : List Nat) (ht : t ≠ SPACE) :
    first_non_space (List.replicate k SPACE ++ t :: w) = k := by
  induction k with
  | zero => simp [first_non_space, List.findIdx_cons, ht]
  | succ n ih =>
    simp only [first_non_space] at ih
    simp only [first_non_space, List.replicate_succ, List.cons_append, List.findIdx_cons, ih]
    simp

theorem decode_loop_spec (gs : List (List Nat)) : ∀ (pre : List Nat),
    gs ≠ [] → (∀ g ∈ gs, is_group g) →
    decode_loop (pre ++ join_groups gs) gs.length pre.length = decode_groups gs := by
  induction gs with
  | nil => intro pre hne; exact absurd rfl hne
  | cons g rest ih =>
    intro pre _ hgs
    have hg : is_group g := hgs g (by simp)
    have hns : ∀ t ∈ g, t ≠ SPACE := fun t ht => token_ne_space (hg.2 t ht)
    cases rest with
    | nil =>
      have hr := read_group_spec g pre [] (pre ++ g ++ []).length 1 hns rfl (by simp)
      simp only [List.append_nil] at hr
      simp only [join_groups, List.length_singleton, decode_loop, hr, decode_groups, decode_group]
    | cons g1 rest1 =>
      have hr := read_group_spec g pre (SPACE :: join_groups (g1 :: rest1))
        (pre ++ g ++ SPACE :: join_groups (g1 :: rest1)).length 1 hns rfl
        (by simp; omega)
      have e1 : pre ++ join_groups (g :: g1 :: rest1)
          = pre ++ g ++ SPACE :: join_groups (g1 :: rest1) := by simp [join_groups]
      have e2 : pre ++ g ++ SPACE :: join_groups (g1 :: rest1)
          = (pre ++ g ++ [SPACE]) ++ join_groups (g1 :: rest1) := by simp
      have e3 : pre.length + g.length + 1 = (pre ++ g ++ [SPACE]).length := by
        simp [Nat.add_assoc]
      have hi := ih (pre ++ g ++ [SPACE]) (by simp)
        (fun x hx => hgs x (List.mem_cons_of_mem _ hx))
      rw [e1, List.length_cons, decode_loop, hr]
      simp only []
      rw [e3, e2, hi]
      simp only [decode_groups, decode_group]

/-- On an input whose groups are separated by exactly one space, after any number of
leading spaces, `decode` writes one character per group. -/
theorem decode_well_formed (k : Nat) (gs : List (List Nat))
    (hne : gs ≠ []) (hgs : ∀ g ∈ gs, is_group g) :
    find_token_count (List.replicate k SPACE ++ join_groups gs) = gs.length
      ∧ decode (List.replicate k SPACE ++ join_groups gs) = decode_groups gs := by
  have hj : join_groups gs ≠ [] := by
    cases gs with
    | nil => exact absurd rfl hne
    | cons g rest => exact join_groups_ne_nil g rest (hgs g (by simp)).1
  have hc : find_token_count (List.replicate k SPACE ++ join_groups gs) = gs.length := by
    rw [find_token_count_eq, count_ends_leading k _ hj, count_ends_join gs hne hgs]
  refine ⟨hc, ?_⟩
  have hf : first_non_space (List.replicate k SPACE ++ join_groups gs)
      = (List.replicate k SPACE).length := by
    cases gs with
    | nil => exact absurd rfl hne
    | cons g rest =>
      have hg : is_group g := hgs g (by simp)
      cases g with
      | nil => exact absurd rfl hg.1
      | cons t g1 =>
        have ht : t ≠ SPACE := token_ne_space (hg.2 t (by simp))
        have e : join_groups ((t :: g1) :: rest) = t :: (join_groups ((t :: g1) :: rest)).tail := by
          cases rest <;> simp [join_groups]
        rw [e, first_non_space_leading k t _ ht]
        simp
  rw [decode, hc, hf, decode_loop_spec gs _ hne hgs]

/-! ## Facts about the table, by evaluation -/

theorem decode_map_length : decode_map.length = 128 := by decide

/-- Every character that is a space or a table entry other than the filler has a non-empty
group of tokens, and the downward walk over that group reads the character back. -/
theorem table_groups : ∀ c ∈ SPACE :: decode_map, c ≠ SENTINEL →
    to_upper c = c ∧ is_group (char_group c) ∧ decode_group (char_group c) = some c := by
  decide

theorem decode_groups_char_groups (s : List Nat)
    (h : ∀ c ∈ s, c = SPACE ∨ (c ∈ decode_map ∧ c ≠ SENTINEL)) :
    decode_groups (s.map char_group) = some s := by
  induction s with
  | nil => rfl
  | cons c rest ih =>
    have hc : c ∈ SPACE :: decode_map ∧ c ≠ SENTINEL := by
      rcases h c (by simp) with h1 | ⟨h1, h2⟩
      · subst h1; exact ⟨by simp, by decide⟩
      · exact ⟨List.mem_cons_of_mem _ h1, h2⟩
    have ht := table_groups c hc.1 hc.2
    simp only [List.map_cons, decode_groups, ht.2.2,
      ih (fun x hx => h x (List.mem_cons_of_mem _ hx))]

/-! ## The node counter of `decode` and the node of the specification -/

theorem down_walk_mod (g : List Nat) : ∀ n : Nat,
    down_walk (n % SIZE_MOD) g = node_walk n g % SIZE_MOD := by
  induction g with
  | nil => intro n; rfl
  | cons t g1 ih =>
    intro n
    have e : (n % SIZE_MOD * 2 + (if t = DASH then 1 else 0)) % SIZE_MOD
        = (2 * n + (if t = DASH then 1 else 0)) % SIZE_MOD := by
      rw [Nat.add_mod, Nat.mul_mod, Nat.mod_mod, ← Nat.mul_mod, ← Nat.add_mod, Nat.mul_comm]
    rw [down_walk, node_walk, e, ih]

theorem node_walk_bounds (g : List Nat) : ∀ n : Nat,
    n * 2 ^ g.length ≤ node_walk n g ∧ node_walk n g < (n + 1) * 2 ^ g.length := by
  induction g with
  | nil => intro n; simp [node_walk]
  | cons t g1 ih =>
    intro n
    have h := ih (2 * n + (if t = DASH then 1 else 0))
    rw [node_walk, List.length_cons, Nat.pow_succ]
    constructor
    · calc n * (2 ^ g1.length * 2) = (2 * n) * 2 ^ g1.length := by ring
        _ ≤ (2 * n + (if t = DASH then 1 else 0)) * 2 ^ g1.length :=
            Nat.mul_le_mul_right _ (Nat.le_add_right _ _)
        _ ≤ _ := h.1
    · calc node_walk (2 * n + (if t = DASH then 1 else 0)) g1
          < (2 * n + (if t = DASH then 1 else 0) + 1) * 2 ^ g1.length := h.2
        _ ≤ (2 * n + 2) * 2 ^ g1.length := by
            apply Nat.mul_le_mul_right
            split <;> omega
        _ = (n + 1) * (2 ^ g1.length * 2) := by ring

/-- A group of fewer than 64 tokens does not wrap the node counter. -/
theorem down_walk_short (g : List Nat) (h : g.length < 64) :
    down_walk 1 g = node_walk 1 g := by
  have hb := (node_walk_bounds g 1).2
  have hp : 2 * 2 ^ g.length ≤ SIZE_MOD := by
    have : 2 ^ (g.length + 1) ≤ 2 ^ 64 := Nat.pow_le_pow_right (by decide) h
    rw [Nat.pow_succ] at this
    unfold SIZE_MOD
    omega
  have hm := down_walk_mod g 1
  rw [Nat.mod_eq_of_lt (by unfold SIZE_MOD; decide)] at hm
  rw [hm, Nat.mod_eq_of_lt (by omega)]

theorem node_walk_pos (g : List Nat) : 1 ≤ node_walk 1 g := by
  have h := (node_walk_bounds g 1).1
  have : 0 < 2 ^ g.length := Nat.pos_pow_of_pos _ (by decide)
  omega

/-- A node inside the table is reached by at most seven tokens. -/
theorem length_of_node_le (g : List Nat) (h : node_walk 1 g ≤ 128) : g.length < 64 := by
  have hb := (node_walk_bounds g 1).1
  by_contra hc
  have : 2 ^ 8 ≤ 2 ^ g.length := Nat.pow_le_pow_right (by decide) (by omega)
  omega

theorem decode_single (g : List Nat) (hg : is_group g) :
    decode g = (decode_group g).map (fun ch => [ch]) := by
  have h := (decode_well_formed 0 [g] (by simp) (by simpa using hg)).2
  simp only [List.replicate_zero, List.nil_append, join_groups] at h
  rw [h, decode_groups]
  cases decode_group g <;> rfl

/-- The table read of a node that did not wrap is inside the table or replaced by a
space. -/
theorem lookup_char_of_pos (n : Nat) (h1 : 1 ≤ n) (h2 : n < SIZE_MOD) :
    lookup_char n = if n > 128 then some SPACE else decode_map.get? (n - 1) := by
  have e : (n + SIZE_MOD - 1) % SIZE_MOD = n - 1 := by
    have : n + SIZE_MOD - 1 = (n - 1) + SIZE_MOD := by omega
    rw [this, Nat.add_mod_right, Nat.mod_eq_of_lt (by omega)]
  rw [lookup_char, decode_map_length, e]

/-- A group of fewer than 64 tokens whose index lies outside the table decodes to one
space. -/
theorem decode_out_of_range (g : List Nat) (hg : is_group g) (hl : g.length < 64)
    (hi : 128 ≤ node_walk 1 g - 1) : decode g = some [SPACE] := by
  have hb := (node_walk_bounds g 1).2
  have hp : 2 * 2 ^ g.length ≤ SIZE_MOD := by
    have : 2 ^ (g.length + 1) ≤ 2 ^ 64 := Nat.pow_le_pow_right (by decide) hl
    rw [Nat.pow_succ] at this
    unfold SIZE_MOD
    omega
  rw [decode_single g hg, decode_group, down_walk_short g hl,
    lookup_char_of_pos _ (node_walk_pos g) (by omega), if_pos (by omega)]
  rfl

/-! ## Shape of the output of `encode` -/

theorem marker_mod_two (n : Nat) : marker (n % 2) = DOT ∨ marker (n % 2) = DASH := by
  rcases Nat.mod_two_eq_zero_or_one n with h | h <;> rw [h]
  · right; decide
  · left; decide

theorem up_walk_tokens (fuel : Nat) : ∀ node, ∀ t ∈ up_walk fuel node, t = DOT ∨ t = DASH := by
  induction fuel with
  | zero => intro node t ht; simp [up_walk] at ht
  | succ f ih =>
    intro node t ht
    by_cases hn : node = 0
    · simp [up_walk, hn] at ht
    · simp only [up_walk, hn, if_false, List.mem_cons] at ht
      rcases ht with ht | ht
      · rw [ht]; exact marker_mod_two node
      · exact ih _ t ht

theorem char_group_tokens (c : Nat) : ∀ t ∈ char_group c, t = DOT ∨ t = DASH := by
  intro t ht
  rw [char_group, token_group, List.mem_reverse] at ht
  exact up_walk_tokens _ _ t ht

theorem mem_join_groups (gs : List (List Nat)) : ∀ x ∈ join_groups gs,
    x = SPACE ∨ ∃ g ∈ gs, x ∈ g := by
  induction gs with
  | nil => intro x hx; simp [join_groups] at hx
  | cons g rest ih =>
    intro x hx
    cases rest with
    | nil =>
      simp only [join_groups] at hx
      exact Or.inr ⟨g, by simp, hx⟩
    | cons g1 rest1 =>
      simp only [join_groups, List.mem_append, List.mem_cons] at hx
      rcases hx with hx | hx | hx
      · exact Or.inr ⟨g, by simp, hx⟩
      · exact Or.inl hx
      · rcases ih x hx with h | ⟨g2, hg2, hx2⟩
        · exact Or.inl h
        · exact Or.inr ⟨g2, List.mem_cons_of_mem _ hg2, hx2⟩

theorem join_groups_length (gs : List (List Nat)) :
    (join_groups gs).length = (gs.map List.length).sum + (gs.length - 1) := by
  induction gs with
  | nil => rfl
  | cons g rest ih =>
    have h := join_groups_length_cons g rest
    cases rest with
    | nil => simp [join_groups]
    | cons g1 rest1 =>
      simp only [List.map_cons, List.sum_cons, List.length_cons] at ih h ⊢
      simp at h
      omega

/-! ## Groups short enough for the node counter -/

theorem tree_path_fuel_eq (fuel : Nat) : ∀ n, n ≤ fuel →
    tree_path_fuel fuel n = tree_path_fuel n n := by
  induction fuel using Nat.strong_induction_on with
  | _ fuel ih =>
    intro n h
    cases fuel with
    | zero =>
      have : n = 0 := by omega
      subst this; rfl
    | succ f =>
      cases n with
      | zero => rfl
      | succ m =>
        simp only [tree_path_fuel, Nat.succ_ne_zero, if_false, Nat.add_sub_cancel]
        rw [ih f (Nat.lt_succ_self f) (m / 2) (by omega),
          ih m (by omega) (m / 2) (Nat.div_le_self m 2)]

theorem tree_path_succ (m : Nat) :
    tree_path (m + 1) = tree_path (m / 2) ++ [if (m + 1) % 2 = 1 then DOT else DASH] := by
  simp only [tree_path, tree_path_fuel, Nat.succ_ne_zero, if_false, Nat.add_sub_cancel]
  rw [tree_path_fuel_eq m (m / 2) (Nat.div_le_self m 2)]

theorem tree_path_odd (i : Nat) : tree_path (2 * i + 1) = tree_path i ++ [DOT] := by
  rw [tree_path_succ]
  have h1 : 2 * i / 2 = i := by omega
  have h2 : (2 * i + 1) % 2 = 1 := by omega
  rw [h1, h2, if_pos rfl]

theorem tree_path_even (i : Nat) : tree_path (2 * i + 2) = tree_path i ++ [DASH] := by
  rw [show 2 * i + 2 = (2 * i + 1) + 1 from rfl, tree_path_succ]
  have h1 : (2 * i + 1) / 2 = i := by omega
  have h2 : (2 * i + 1 + 1) % 2 ≠ 1 := by omega
  rw [h1, if_neg h2]

theorem tree_depth_fuel_eq (fuel : Nat) : ∀ n, n ≤ fuel →
    tree_depth_fuel fuel n = tree_depth_fuel n n := by
  induction fuel using Nat.strong_induction_on with
  | _ fuel ih =>
    intro n h
    cases fuel with
    | zero =>
      have : n = 0 := by omega
      subst this; rfl
    | succ f =>
      cases n with
      | zero => rfl
      | succ m =>
        simp only [tree_depth_fuel, Nat.succ_ne_zero, if_false, Nat.add_sub_cancel]
        rw [ih f (Nat.lt_succ_self f) (m / 2) (by omega),
          ih m (by omega) (m / 2) (Nat.div_le_self m 2)]

theorem tree_depth_succ (m : Nat) : tree_depth (m + 1) = tree_depth (m / 2) + 1 := by
  simp only [tree_depth, tree_depth_fuel, Nat.succ_ne_zero, if_false, Nat.add_sub_cancel]
  rw [tree_depth_fuel_eq m (m / 2) (Nat.div_le_self m 2)]

theorem tree_depth_odd (i : Nat) : tree_depth (2 * i + 1) = tree_depth i + 1 := by
  rw [tree_depth_succ]
  have h1 : 2 * i / 2 = i := by omega
  rw [h1]

theorem tree_depth_even (i : Nat) : tree_depth (2 * i + 2) = tree_depth i + 1 := by
  rw [show 2 * i + 2 = (2 * i + 1) + 1 from rfl, tree_depth_succ]
  have h1 : (2 * i + 1) / 2 = i := by omega
  rw [h1]

theorem marker_of_parity (node : Nat) :
    marker (node % 2) = if node % 2 = 1 then DOT else DASH := by
  rcases Nat.mod_two_eq_zero_or_one node with h | h <;> rw [h] <;> decide

/-- The token group of every index is its path in the tree. -/
theorem token_group_eq_tree_path (n : Nat) : token_group n = tree_path n := by
  induction n using Nat.strong_induction_on with
  | _ n ih =>
    cases n with
    | zero => rfl
    | succ m =>
      have hu := up_walk_eq (m + 1)
      simp only [Nat.succ_ne_zero, if_false, Nat.add_sub_cancel] at hu
      have hp := ih (m / 2) (by omega)
      rw [token_group] at hp ⊢
      rw [hu, List.reverse_cons, hp, tree_path_succ, marker_of_parity]

/-- The length of the token group of every index is its depth in the tree. -/
theorem token_group_length (n : Nat) : (token_group n).length = tree_depth n := by
  induction n using Nat.strong_induction_on with
  | _ n ih =>
    cases n with
    | zero => rfl
    | succ m =>
      have hp := ih (m / 2) (by omega)
      rw [token_group_eq_tree_path] at hp ⊢
      rw [tree_path_succ, tree_depth_succ, List.length_append, hp]
      rfl

/-! ## Characters outside the table, and the filler as input -/

theorem to_upper_eq_sentinel (c : Nat) (h : to_upper c = SENTINEL) : c = SENTINEL := by
  unfold to_upper SENTINEL at *
  split at h <;> omega

theorem table_find_all : ∀ c ∈ decode_map, c ≠ SENTINEL →
    decode_map.get? (find_letter_index c) = some c := by
  decide

theorem find_letter_index_absent (x : Nat) (h : x ∉ decode_map) :
    find_letter_index x = 128 := by
  unfold find_letter_index
  rw [List.indexOf_of_not_mem h, decode_map_length]

/-- Only the filler is found at the root. -/
theorem find_letter_index_ne_zero (x : Nat) (h : x ≠ SENTINEL) : find_letter_index x ≠ 0 := by
  intro h0
  by_cases hm : x ∈ decode_map
  · have hf := table_find_all x hm h
    rw [h0] at hf
    have h60 : decode_map.get? 0 = some SENTINEL := by decide
    rw [h60] at hf
    exact h (Option.some.inj hf).symm
  · rw [find_letter_index_absent x hm] at h0
    exact absurd h0 (by decide)

theorem token_group_ne_nil (n : Nat) (h : n ≠ 0) : token_group n ≠ [] := by
  rw [token_group, up_walk_eq, if_neg h]
  simp

/-- C1 (round trip): for every string whose characters are the space or table entries
other than the filler `<`, `encode` returns a string and `decode` of it returns the
input. -/
theorem round_trip (s : List Nat) (h : ∀ c ∈ s, is_recognized c) :
    ∃ e, encode s = some e ∧ decode e = some s := by
  refine ⟨_, encode_eq s, ?_⟩
  cases s with
  | nil => rfl
  | cons c rest =>
    have hgs : ∀ g ∈ (c :: rest).map char_group, is_group g := by
      intro g hg
      obtain ⟨x, hx, rfl⟩ := List.mem_map.1 hg
      have hr : x ∈ SPACE :: decode_map ∧ x ≠ SENTINEL := by
        rcases h x hx with h1 | ⟨h1, h2⟩
        · subst h1; exact ⟨by simp, by decide⟩
        · exact ⟨List.mem_cons_of_mem _ h1, h2⟩
      exact (table_groups x hr.1 hr.2).2.1
    have hd := (decode_well_formed 0 ((c :: rest).map char_group) (by simp) hgs).2
    simp only [List.replicate_zero, List.nil_append] at hd
    rw [hd]
    exact decode_groups_char_groups _ h

/-- Witness of C1: the input of the compile-time self-check in `main`. -/
theorem round_trip_witness :
    (∀ c ∈ wstr "ABCDEFGHIJKLMNOPQRSTUVWSYZ1234567890 ?", is_recognized c)
      ∧ ∃ e, encode (wstr "ABCDEFGHIJKLMNOPQRSTUVWSYZ1234567890 ?") = some e
          ∧ decode e = some (wstr "ABCDEFGHIJKLMNOPQRSTUVWSYZ1234567890 ?") :=
  ⟨by decide, round_trip _ (by decide)⟩

theorem itu_code_eq_char_group : ∀ c, c < 91 → is_letter_or_digit c →
    itu_code c = some (char_group c) := by
  decide

theorem itu_code_of_letter_or_digit (c : Nat) (h : is_letter_or_digit c) :
    itu_code c = some (char_group c) :=
  itu_code_eq_char_group c (by unfold is_letter_or_digit at h; omega) h

/-- C2 (International Morse code on letters and digits): for every upper-case letter and
every digit, `encode` of the one-character string is the character's code in `itu_table`;
for a string of such characters the output is the codes joined by single spaces;
`encode("SOS")` is `"... --- ..."` and `decode("... --- ...")` is `"SOS"`. -/
theorem encode_itu_letters_digits :
    (∀ c, is_letter_or_digit c → ∃ code, itu_code c = some code ∧ encode [c] = some code)
      ∧ (∀ s : List Nat, (∀ c ∈ s, is_letter_or_digit c) →
          encode s = some ([SPACE].intercalate (s.map (fun c => (itu_code c).getD []))))
      ∧ encode (wstr "SOS") = some (wstr "... --- ...")
      ∧ decode (wstr "... --- ...") = some (wstr "SOS") := by
  refine ⟨?_, ?_, by decide, by decide⟩
  · intro c hc
    exact ⟨char_group c, itu_code_of_letter_or_digit c hc, by simp [encode_eq, join_groups]⟩
  · intro s hs
    rw [encode_eq, join_groups_eq_intercalate]
    congr 2
    apply List.map_congr_left
    intro c hc
    rw [itu_code_of_letter_or_digit c (hs c hc)]
    rfl

/-- Witness of C2: the string `"SOS"` consists of letters and encodes to their codes. -/
theorem encode_itu_letters_digits_witness :
    (∀ c ∈ wstr "SOS", is_letter_or_digit c)
      ∧ encode (wstr "SOS")
          = some ([SPACE].intercalate ((wstr "SOS").map (fun c => (itu_code c).getD []))) :=
  ⟨by decide, encode_itu_letters_digits.2.1 (wstr "SOS") (by decide)⟩

/-- C3 (case normalization) at the input `"abc"`: `to_upper` leaves `a` (and `z`) unchanged
because both of its comparisons are strict, so `a` is searched as a lower-case letter, is
not found, and `encode("abc")` differs from `encode("ABC")`. -/
theorem encode_abc_differs :
    to_upper 97 = 97 ∧ to_upper 122 = 122 ∧ to_upper 98 = 66
      ∧ encode (wstr "abc") = some (wstr "......- -... -.-.")
      ∧ encode (wstr "ABC") = some (wstr ".- -... -.-.")
      ∧ encode (wstr "abc") ≠ encode (wstr "ABC") := by
  decide

/-- Counterexample to C4: `#` has no entry in the table and `encode("1#2")` returns a
string, with a token group for `#`. -/
theorem encode_unknown_returns :
    to_upper 35 ∉ decode_map
      ∧ encode (wstr "1#2") = some (wstr ".---- ......- ..---") := by
  decide

theorem token_group_past_end : token_group 128 = wstr "......-" := by decide

/-- C4 as amended: `encode` returns a string for every input; a character that has no
entry in the table after case normalization gets the index 128, one past the end of the
table, and its token group in the output is `"......-"`. -/
theorem encode_unsupported (before after : List Nat) (c : Nat)
    (hn : to_upper c ∉ decode_map) :
    find_letter_index (to_upper c) = 128
      ∧ encode [c] = some (wstr "......-")
      ∧ encode (before ++ c :: after)
          = some ([SPACE].intercalate
              (before.map char_group ++ wstr "......-" :: after.map char_group)) := by
  have hi : find_letter_index (to_upper c) = 128 := by
    unfold find_letter_index
    rw [List.indexOf_of_not_mem hn, decode_map_length]
  have hg : char_group c = wstr "......-" := by
    rw [char_group, hi, token_group_past_end]
  refine ⟨hi, by simp [encode_eq, join_groups, hg], ?_⟩
  rw [encode_eq, join_groups_eq_intercalate, List.map_append, List.map_cons, hg]

/-- Witness of C4 as amended: the character `#` of the text `"1#2"`. -/
theorem encode_unsupported_witness :
    to_upper 35 ∉ decode_map
      ∧ find_letter_index (to_upper 35) = 128
      ∧ encode [35] = some (wstr "......-")
      ∧ encode (wstr "1" ++ 35 :: wstr "2")
          = some ([SPACE].intercalate
              ((wstr "1").map char_group ++ wstr "......-" :: (wstr "2").map char_group)) :=
  ⟨by decide, encode_unsupported (wstr "1") (wstr "2") 35 (by decide)⟩

/-- C5 (out-of-range groups) at a group of 64 dots: the specification's node is `2 ^ 64`, so
the index is outside the table, but the 64-bit node counter of `decode` has wrapped to `0`;
the test `current_index > decode_map.size()` fails and `decode_map[current_index - 1]`
is read at index `2 ^ 64 - 1`, outside the table.  The ten dashes of the claim's witness do
decode to one space. -/
theorem decode_sixty_four_dots :
    is_group (List.replicate 64 DOT)
      ∧ 128 ≤ node_walk 1 (List.replicate 64 DOT) - 1
      ∧ down_walk 1 (List.replicate 64 DOT) = 0
      ∧ lookup_char 0 = none
      ∧ decode (List.replicate 64 DOT) = none
      ∧ decode (wstr "----------") = some (wstr " ") := by
  decide

/-- Counterexample to C6: the group `".-.-"` reaches index 20, which holds the filler, and
`decode` returns the filler `<`, not a space. -/
theorem decode_unused_node_is_filler :
    is_group (wstr ".-.-")
      ∧ node_walk 1 (wstr ".-.-") - 1 = 20
      ∧ decode_map.get? 20 = some SENTINEL
      ∧ decode (wstr ".-.-") = some (wstr "<")
      ∧ decode (wstr ".-.-") ≠ some (wstr " ") := by
  decide

/-- C6 as amended: for every group whose index is inside the table and holds the filler,
`decode` returns the one-character string `"<"`, the filler itself. -/
theorem decode_unmapped (g : List Nat) (hg : is_group g)
    (hi : node_walk 1 g - 1 < decode_map.length)
    (hs : decode_map.get? (node_walk 1 g - 1) = some SENTINEL) :
    decode g = some [SENTINEL] := by
  have hp := node_walk_pos g
  rw [decode_map_length] at hi
  have hl : g.length < 64 := length_of_node_le g (by omega)
  have hb := (node_walk_bounds g 1).2
  rw [decode_single g hg, decode_group, down_walk_short g hl,
    lookup_char_of_pos _ hp (by unfold SIZE_MOD; omega), if_neg (by omega), hs]
  rfl

/-- Witness of C6 as amended: the group `".-.-"`. -/
theorem decode_unmapped_witness :
    is_group (wstr ".-.-")
      ∧ node_walk 1 (wstr ".-.-") - 1 < decode_map.length
      ∧ decode_map.get? (node_walk 1 (wstr ".-.-") - 1) = some SENTINEL
      ∧ decode (wstr ".-.-") = some [SENTINEL] :=
  ⟨by decide, by decide, by decide,
    decode_unmapped (wstr ".-.-") (by decide) (by decide) (by decide)⟩

/-- C8 (output shape and size): the output of `encode` for one character is its token
group, made of dots and dashes, whose length is `letter_length`; for every text the output
is the token groups of its characters in input order, joined by single spaces, all its
characters are dots, dashes or spaces, and its length is the sum of the depths plus
`n - 1`. -/
theorem encode_shape :
    (∀ c, encode [c] = some (char_group c)
        ∧ (char_group c).length = letter_length (to_upper c)
        ∧ ∀ t ∈ char_group c, t = DOT ∨ t = DASH)
      ∧ ∀ text : List Nat, ∃ out, encode text = some out
        ∧ out = [SPACE].intercalate (text.map char_group)
        ∧ (∀ x ∈ out, x = DOT ∨ x = DASH ∨ x = SPACE)
        ∧ out.length
            = (text.map (fun c => letter_length (to_upper c))).sum + (text.length - 1) := by
  constructor
  · intro c
    exact ⟨by simp [encode_eq, join_groups], (letter_length_eq c).symm, char_group_tokens c⟩
  · intro text
    refine ⟨_, encode_eq text, join_groups_eq_intercalate _, ?_, ?_⟩
    · intro x hx
      rcases mem_join_groups _ x hx with h | ⟨g, hg, hxg⟩
      · exact Or.inr (Or.inr h)
      · obtain ⟨c, _, rfl⟩ := List.mem_map.1 hg
        rcases char_group_tokens c x hxg with h | h
        · exact Or.inl h
        · exact Or.inr (Or.inl h)
    · rw [join_groups_length, List.map_map, List.length_map]
      congr 2
      apply List.map_congr_left
      intro c _
      exact (letter_length_eq c).symm

/-- Witness of C8: the text `"SOS"`. -/
theorem encode_shape_witness :
    ∃ out, encode (wstr "SOS") = some out
      ∧ out = [SPACE].intercalate ((wstr "SOS").map char_group)
      ∧ (∀ x ∈ out, x = DOT ∨ x = DASH ∨ x = SPACE)
      ∧ out.length
          = ((wstr "SOS").map (fun c => letter_length (to_upper c))).sum
              + ((wstr "SOS").length - 1) :=
  encode_shape.2 (wstr "SOS")

/-- C9 (decode output length) at the input `".- "` followed by 64 dots: it has two groups
separated by one space and ends with a token, and `find_token_count` is 2, but the node
counter wraps to `0` on the second group and `decode` reads the table outside its bounds,
so no output exists.  The claim's witness `"... --- ..."` decodes to three characters. -/
theorem decode_two_groups_fails :
    (∀ g ∈ [wstr ".-", List.replicate 64 DOT], is_group g)
      ∧ wstr ".- " ++ List.replicate 64 DOT
          = join_groups [wstr ".-", List.replicate 64 DOT]
      ∧ find_token_count (wstr ".- " ++ List.replicate 64 DOT) = 2
      ∧ decode (wstr ".- " ++ List.replicate 64 DOT) = none
      ∧ (decode (wstr "... --- ...")).map List.length = some 3 := by
  decide

theorem table_index_unique : ∀ i, i < 128 → ∀ j, j < 128 →
    decode_map.getD i 0 ≠ SENTINEL → decode_map.getD i 0 = decode_map.getD j 0 → i = j := by
  decide

theorem table_find : ∀ c ∈ decode_map, c ≠ SENTINEL →
    decode_map.get? (find_letter_index c) = some c ∧ decode_map.count c = 1 := by
  decide

/-- C10 (table uniqueness): the table has 128 entries, and every entry other than the
filler `<` occurs at exactly one index, which is the index that the search of `encode`
returns. -/
theorem table_unique (c : Nat) (hc : c ∈ decode_map) (hs : c ≠ SENTINEL) :
    decode_map.length = 128
      ∧ decode_map.count c = 1
      ∧ (∀ i, decode_map.get? i = some c ↔ i = find_letter_index c)
      ∧ decode_map.get? (find_letter_index c) = some c := by
  have hf := table_find c hc hs
  refine ⟨decode_map_length, hf.2, ?_, hf.1⟩
  intro i
  constructor
  · intro hi
    have hlt : ∀ k, decode_map.get? k = some c → k < 128 ∧ decode_map.getD k 0 = c := by
      intro k hk
      have h1 : k < decode_map.length := by
        by_contra hcon
        rw [List.get?_eq_none.2 (by omega)] at hk
        exact absurd hk (by simp)
      refine ⟨by rw [← decode_map_length]; exact h1, ?_⟩
      rw [List.getD_eq_getElem?_getD, ← List.get?_eq_getElem?, hk]
      rfl
    have hi1 := hlt i hi
    have hj1 := hlt _ hf.1
    exact table_index_unique i hi1.1 _ hj1.1 (by rw [hi1.2]; exact hs) (by rw [hi1.2, hj1.2])
  · intro hi
    rw [hi]; exact hf.1

/-- Witness of C10: the letter `A`, found at index 4. -/
theorem table_unique_witness :
    65 ∈ decode_map ∧ 65 ≠ SENTINEL
      ∧ decode_map.length = 128
      ∧ decode_map.count 65 = 1
      ∧ (∀ i, decode_map.get? i = some 65 ↔ i = find_letter_index 65)
      ∧ decode_map.get? (find_letter_index 65) = some 65 :=
  ⟨by decide, by decide, table_unique 65 (by decide) (by decide)⟩

/-- C11 (International Morse code on punctuation) at the comma, the colon and the two
parentheses: of the thirteen marks of `itu_punctuation`, `encode` emits the code of the
table for nine, and for these four it emits `"--.-.."`, `"---..-"`, `"-.--.-"` and
`"-.---."`, because `decode_map` holds them at the indices 115, 120, 108 and 109 while
their codes lead to the indices 114, 119, 53 and 108. -/
theorem encode_punctuation_differs :
    itu_punctuation.filter (fun p => encode (wstr p.1) != some (wstr p.2))
        = [(",", "--..--"), (":", "---..."), ("(", "-.--."), (")", "-.--.-")]
      ∧ encode (wstr ",") = some (wstr "--.-..")
      ∧ encode (wstr ":") = some (wstr "---..-")
      ∧ encode (wstr "(") = some (wstr "-.--.-")
      ∧ encode (wstr ")") = some (wstr "-.---.")
      ∧ (wstr ",:()").map find_letter_index = [115, 120, 108, 109]
      ∧ [wstr "--..--", wstr "---...", wstr "-.--.", wstr "-.--.-"].map
          (fun g => node_walk 1 g - 1) = [114, 119, 53, 108] := by
  decide

/-- C12 (empty boundary): `encode` of the empty text is the empty string and `decode` of
the empty string is the empty text. -/
theorem empty_boundary :
    encode [] = some [] ∧ decode [] = some []
      ∧ result_size [] = 0 ∧ find_token_count [] = 0 := by
  decide

theorem tree_walks : ∀ n, n ≤ 128 →
    (write_loop n n (List.replicate (tree_depth n) 0) 0).map
        (fun p => (reverse_range p.1 0 p.2, p.2)) = some (tree_path n, tree_depth n)
      ∧ read_group (tree_path n) (tree_path n).length 0 1 = ((tree_path n).length, n + 1) := by
  decide

/-- C13 (implicit-tree child relation): `tree_path` is the path of the claim and
`tree_depth` the depth that goes with it; for every index `n ≤ 128` the token group of `n`
is `tree_path n` and has `tree_depth n` tokens, the upward walk of `encode` from `n`
stores `tree_depth n` markers that read `tree_path n` after the reversal, and the
downward walk of `decode` over `tree_path n` ends with `current_index = n + 1`. -/
theorem tree_child_relation :
    (tree_path 0 = [] ∧ (∀ i, tree_path (2 * i + 1) = tree_path i ++ [DOT])
        ∧ ∀ i, tree_path (2 * i + 2) = tree_path i ++ [DASH])
      ∧ (tree_depth 0 = 0 ∧ (∀ i, tree_depth (2 * i + 1) = tree_depth i + 1)
        ∧ ∀ i, tree_depth (2 * i + 2) = tree_depth i + 1)
      ∧ ∀ n, n ≤ 128 →
        token_group n = tree_path n
          ∧ (token_group n).length = tree_depth n
          ∧ (write_loop n n (List.replicate (tree_depth n) 0) 0).map
              (fun p => (reverse_range p.1 0 p.2, p.2)) = some (tree_path n, tree_depth n)
          ∧ read_group (tree_path n) (tree_path n).length 0 1
              = ((tree_path n).length, n + 1)
          ∧ down_walk 1 (tree_path n) - 1 = n := by
  refine ⟨⟨rfl, tree_path_odd, tree_path_even⟩, ⟨rfl, tree_depth_odd, tree_depth_even⟩, ?_⟩
  intro n hn
  have hw := tree_walks n hn
  refine ⟨token_group_eq_tree_path n, token_group_length n, hw.1, hw.2, ?_⟩
  have hr := read_group_spec (tree_path n) [] [] (tree_path n).length 1
    (by
      intro t ht
      rw [← token_group_eq_tree_path, token_group, List.mem_reverse] at ht
      exact token_ne_space (up_walk_tokens _ _ t ht))
    rfl (Nat.le_refl _)
  simp only [List.nil_append, List.append_nil, List.length_nil, Nat.zero_add] at hr
  rw [hw.2] at hr
  have := (Prod.mk.inj hr).2
  omega

/-- Witness of C13: the index 76 of `_`, whose path is `"..--.-"`. -/
theorem tree_child_relation_witness :
    76 ≤ 128 ∧ tree_path 76 = wstr "..--.-"
      ∧ token_group 76 = tree_path 76
      ∧ (token_group 76).length = tree_depth 76
      ∧ (write_loop 76 76 (List.replicate (tree_depth 76) 0) 0).map
          (fun p => (reverse_range p.1 0 p.2, p.2)) = some (tree_path 76, tree_depth 76)
      ∧ read_group (tree_path 76) (tree_path 76).length 0 1 = ((tree_path 76).length, 76 + 1)
      ∧ down_walk 1 (tree_path 76) - 1 = 76 :=
  ⟨by decide, by decide, tree_child_relation.2.2 76 (by decide)⟩

/-- Counterexample to C14: the odd node 1 emits a dot and the even node 2 emits a dash. -/
theorem odd_node_emits_dot :
    marker (1 % 2) = DOT ∧ marker (1 % 2) ≠ DASH
      ∧ marker (2 % 2) = DASH ∧ marker (2 % 2) ≠ DOT
      ∧ write_loop 1 1 [0] 0 = some ([DOT], 1)
      ∧ write_loop 2 2 [0] 0 = some ([DASH], 1) := by
  decide

/-- C14 as amended: at each step of the upward walk of `encode`, with the parity taken on
the current node before it is updated, an odd node stores the dot `.` and an even node
stores the dash `-`, after which the node becomes `(node - 1) / 2`; at node `0` the walk
stops. -/
theorem marker_parity (node : Nat) (h : node ≠ 0) :
    marker (node % 2) = (if node % 2 = 1 then DOT else DASH)
      ∧ (∀ (fuel : Nat) (pre post : List Nat) (x : Nat),
          write_loop (fuel + 1) node (pre ++ x :: post) pre.length
            = write_loop fuel ((node - 1) / 2)
                (pre ++ (if node % 2 = 1 then DOT else DASH) :: post) (pre.length + 1))
      ∧ (∀ (fuel : Nat) (buf : List Nat) (write_index : Nat),
          write_loop fuel 0 buf write_index = some (buf, write_index))
      ∧ up_walk node node
          = (if node % 2 = 1 then DOT else DASH)
              :: up_walk ((node - 1) / 2) ((node - 1) / 2) := by
  refine ⟨marker_of_parity node, ?_, ?_, ?_⟩
  · intro fuel pre post x
    rw [write_loop, if_neg h, store_append, marker_of_parity]
  · intro fuel buf write_index
    cases fuel <;> simp [write_loop]
  · rw [up_walk_eq, if_neg h, marker_of_parity]

/-- Witness of C14 as amended: the node 4 of `A` stores a dash and goes on to node 1. -/
theorem marker_parity_witness :
    (4 : Nat) ≠ 0
      ∧ marker (4 % 2) = (if 4 % 2 = 1 then DOT else DASH)
      ∧ (∀ (fuel : Nat) (pre post : List Nat) (x : Nat),
          write_loop (fuel + 1) 4 (pre ++ x :: post) pre.length
            = write_loop fuel ((4 - 1) / 2)
                (pre ++ (if 4 % 2 = 1 then DOT else DASH) :: post) (pre.length + 1))
      ∧ (∀ (fuel : Nat) (buf : List Nat) (write_index : Nat),
          write_loop fuel 0 buf write_index = some (buf, write_index))
      ∧ up_walk 4 4
          = (if 4 % 2 = 1 then DOT else DASH) :: up_walk ((4 - 1) / 2) ((4 - 1) / 2) :=
  ⟨by decide, marker_parity 4 (by decide)⟩

/-- Counterexample to C15: for the input character `<`, the filler itself, the search
returns the index 0 of the root and the token group is empty. -/
theorem filler_addresses_root :
    find_letter_index (to_upper SENTINEL) = 0
      ∧ letter_length (to_upper SENTINEL) = 0
      ∧ char_group SENTINEL = []
      ∧ encode (wstr "<") = some []
      ∧ encode (wstr "A<B") = some (wstr ".-  -...") := by
  decide

/-- C15 as amended: for every input character other than the filler `<`, the index that
`encode` looks up is not `0`, so its depth is at least one and its token group is not
empty. -/
theorem root_not_addressed (c : Nat) (h : c ≠ SENTINEL) :
    find_letter_index (to_upper c) ≠ 0
      ∧ 1 ≤ letter_length (to_upper c)
      ∧ char_group c ≠ []
      ∧ encode [c] = some (char_group c) := by
  have hu : to_upper c ≠ SENTINEL := fun hc => h (to_upper_eq_sentinel c hc)
  have hi := find_letter_index_ne_zero (to_upper c) hu
  have hg : char_group c ≠ [] := token_group_ne_nil _ hi
  refine ⟨hi, ?_, hg, by simp [encode_eq, join_groups]⟩
  rw [letter_length_eq]
  exact List.length_pos.2 hg

/-- Witness of C15 as amended: the space character, which is looked up at index 128. -/
theorem root_not_addressed_witness :
    SPACE ≠ SENTINEL
      ∧ find_letter_index (to_upper SPACE) ≠ 0
      ∧ 1 ≤ letter_length (to_upper SPACE)
      ∧ char_group SPACE ≠ []
      ∧ encode [SPACE] = some (char_group SPACE) :=
  ⟨by decide, root_not_addressed SPACE (by decide)⟩

/-- C17 (the table read of `decode` is in bounds) at the group of a dash followed by 64
dots: the loop leaves `current_index = 0`, which is not in `1..128`; the test
`current_index > decode_map.size()` is false, and `decode_map[current_index - 1]` is read
at index `2 ^ 64 - 1`, outside the 128 entries of the table. -/
theorem decode_read_out_of_bounds :
    is_group (DASH :: List.replicate 64 DOT)
      ∧ read_group (DASH :: List.replicate 64 DOT) 65 0 1 = (65, 0)
      ∧ ¬ (0 > decode_map.length)
      ∧ (0 + SIZE_MOD - 1) % SIZE_MOD = 2 ^ 64 - 1
      ∧ decode_map.get? (2 ^ 64 - 1) = none
      ∧ lookup_char 0 = none
      ∧ decode (DASH :: List.replicate 64 DOT) = none := by
  decide

/-- C18 (the sizing pass matches the writing pass): for every text, every store of the
write loop lands inside the `result_size` characters of `result` (the run returns a
state), the final `write_index` is `result_size`, the buffer has `result_size` characters,
and each of them was written: none is the initial zero. -/
theorem sizing_matches_writing (text : List Nat) :
    ∃ out, encode_run text = some (out, result_size text)
      ∧ out.length = result_size text
      ∧ ∀ x ∈ out, x ≠ 0 := by
  refine ⟨_, encode_run_eq text, (result_size_eq text).symm, ?_⟩
  intro x hx
  rcases mem_join_groups _ x hx with h | ⟨g, hg, hxg⟩
  · rw [h]; decide
  · obtain ⟨c, _, rfl⟩ := List.mem_map.1 hg
    rcases char_group_tokens c x hxg with h | h <;> rw [h] <;> decide

/-- Witness of C18: the self-check input of `main`, whose buffer has 181 characters. -/
theorem sizing_matches_writing_witness :
    result_size (wstr "ABCDEFGHIJKLMNOPQRSTUVWSYZ1234567890 ?") = 181
      ∧ ∃ out, encode_run (wstr "ABCDEFGHIJKLMNOPQRSTUVWSYZ1234567890 ?")
            = some (out, result_size (wstr "ABCDEFGHIJKLMNOPQRSTUVWSYZ1234567890 ?"))
          ∧ out.length = result_size (wstr "ABCDEFGHIJKLMNOPQRSTUVWSYZ1234567890 ?")
          ∧ ∀ x ∈ out, x ≠ 0 :=
  ⟨by decide, sizing_matches_writing _⟩

end morse
